import Mathlib

/-!
Verification of the core ledger engine of `torba/baseledger.py`.

The Python source is shallowly embedded: pure functions become Lean
functions, the effectful synchronization loops become pure functions from
oracles (the database, the network, the Merkle verifier) to the list of
effects they perform (database saves, published events, verification
calls), and the cooperative-lock protected sections become explicit action
traces or small-step interleaving semantics.  Machine-level details that
cannot arise (Python ints are unbounded) are modelled with `Nat`/`Int`.
-/

/-! ## Decimal and positional digits

`toBaseDigits b n` is the little-endian base-`b` digit string of `n`,
written with structural recursion on a fuel argument so that the kernel
can evaluate it; it agrees with Mathlib's `Nat.digits`. -/

def toBaseDigitsRec (b : Nat) : Nat → Nat → List Nat
  | 0, _ => []
  | fuel + 1, n => if n = 0 then [] else n % b :: toBaseDigitsRec b fuel (n / b)

def toBaseDigits (b n : Nat) : List Nat := toBaseDigitsRec b n n

/-! ## Characters and decimal rendering of Python ints

`intToStrChars` is the character sequence Python's `'{}'.format(height)`
produces for an int; `strToNatChars`/`strToIntChars` model `int(s)` on the
well-formed strings the engine itself writes. -/

def digitToChar (d : Nat) : Char := Char.ofNat (48 + d)

def charVal (c : Char) : Nat := c.toNat - 48

def natToChars (n : Nat) : List Char :=
  if n = 0 then ['0'] else ((toBaseDigits 10 n).map digitToChar).reverse

def intToStrChars (i : Int) : List Char :=
  if i < 0 then '-' :: natToChars i.natAbs else natToChars i.toNat

def strToNatChars (l : List Char) : Nat :=
  l.foldl (fun a c => 10 * a + charVal c) 0

def strToIntChars : List Char → Int
  | [] => 0
  | c :: rest => if c = '-' then - (strToNatChars rest : Int) else (strToNatChars (c :: rest) : Int)

/-! ## Splitting on a character

`splitChar c l` is Python's `str.split(c)` for a one-character separator:
`"".split(':') = ['']`, `"a:b".split(':') = ['a', 'b']`. -/

def splitCharAux (c : Char) (cur : List Char) : List Char → List (List Char)
  | [] => [cur.reverse]
  | x :: xs => if x = c then cur.reverse :: splitCharAux c [] xs else splitCharAux c (x :: cur) xs

def splitChar (c : Char) (l : List Char) : List (List Char) := splitCharAux c [] l

/-! ## The history column codec

`historyString` is the cumulative string `update_history` writes:
`''.join('{}:{}:'.format(tx_id, tx_height) for ...)`.  `get_local_history`
is `BaseLedger.get_local_history`: split the stored column on `':'`, drop
the trailing empty element, and pair up `(txid, int(height))`. -/

def histChars : List (String × Int) → List Char
  | [] => []
  | (t, h) :: rest => t.data ++ ':' :: (intToStrChars h ++ ':' :: histChars rest)

def historyString (l : List (String × Int)) : String := ⟨histChars l⟩

def pairUp : List (List Char) → List (String × Int)
  | a :: b :: rest => (⟨a⟩, strToIntChars b) :: pairUp rest
  | _ => []

def get_local_history (stored : String) : List (String × Int) :=
  pairUp ((splitChar ':' stored.data).dropLast)

/-! ## The history synchronizer

`update_history_go` is the loop body of `BaseLedger.update_history`,
turned into a pure function of the two oracles it consults:

* `dbTx txid` models `self.db.get_transaction(txid)`: `some (raw, v)` when
  the database holds the transaction's raw bytes with `is_verified = v`,
  `none` when absent (Python's `(None, None, None)` row; the unpacked
  `is_verified` is then `None`, which is falsy exactly like the `0` we use).
* `validTx txid height` models the boolean the
  `yield self.is_valid_transaction(tx, height)` call produces.

The result collects, in order, every `db.save_transaction_io` call, every
`TransactionEvent` published, and every Merkle-verification call made. -/

structure SaveRec where
  mode : Option String
  txid : String
  height : Int
  verified : Nat
  history : String
deriving DecidableEq

structure TxEvent where
  address : String
  txid : String
  height : Int
  verified : Nat
deriving DecidableEq

structure SyncResult where
  saves : List SaveRec
  events : List TxEvent
  verifyCalls : List (String × Int)
deriving DecidableEq

/-- The skip test of the loop:
`i < len(local_history) and local_history[i] == (hex_id, remote_height)`. -/
def skipAt (localHist : List (String × Int)) (i : Nat) (e : String × Int) : Bool :=
  decide (i < localHist.length) && (localHist[i]? == some e)

def update_history_go (address : String) (dbTx : String → Option (String × Nat))
    (validTx : String → Int → Bool) (localHist : List (String × Int)) :
    Nat → List (String × Int) → List (String × Int) → SyncResult
  | _, _, [] => ⟨[], [], []⟩
  | i, synced, e :: rest =>
    let synced' := synced ++ [e]
    if skipAt localHist i e then
      update_history_go address dbTx validTx localHist (i + 1) synced' rest
    else
      let v0 : Nat := match dbTx e.1 with | none => 0 | some (_, v) => v
      let mode0 : Option String := match dbTx e.1 with | none => some "insert" | some _ => none
      let callsVerify : Bool := decide (e.2 > 0) && decide (v0 = 0)
      let v1 : Nat := if callsVerify then (if validTx e.1 e.2 then 1 else 0) else v0
      let mode1 : Option String :=
        if callsVerify && mode0.isNone then some "update" else mode0
      let r := update_history_go address dbTx validTx localHist (i + 1) synced' rest
      ⟨⟨mode1, e.1, e.2, v1, historyString synced'⟩ :: r.saves,
       ⟨address, e.1, e.2, v1⟩ :: r.events,
       (if callsVerify then [(e.1, e.2)] else []) ++ r.verifyCalls⟩

/-- `BaseLedger.update_history(address)` on a remote history `remote`, with
the address's stored history column equal to `stored`. -/
def update_history (address : String) (dbTx : String → Option (String × Nat))
    (validTx : String → Int → Bool) (stored : String)
    (remote : List (String × Int)) : SyncResult :=
  update_history_go address dbTx validTx (get_local_history stored) 0 [] remote

/-- The history column after a run: the last string passed to
`db.save_transaction_io`, or the unchanged stored column when no save ran. -/
def stored_after (stored : String) (r : SyncResult) : String :=
  ((r.saves.map (fun s => s.history)).getLast?).getD stored

/-! ## Hex codec

`unhexlify`/`hexlify` model `binascii.unhexlify`/`binascii.hexlify` on the
well-formed even-length hex strings the engine handles; bytes are `Nat`s
below 256. -/

def hexVal (c : Char) : Nat :=
  if '0' ≤ c ∧ c ≤ '9' then c.toNat - 48
  else if 'a' ≤ c ∧ c ≤ 'f' then c.toNat - 87
  else if 'A' ≤ c ∧ c ≤ 'F' then c.toNat - 55
  else 0

def hexPairs : List Char → List Nat
  | a :: b :: rest => (16 * hexVal a + hexVal b) :: hexPairs rest
  | _ => []

def unhexlify (s : String) : List Nat := hexPairs s.data

def hexDigit (d : Nat) : Char := if d < 10 then Char.ofNat (48 + d) else Char.ofNat (87 + d)

def hexlify (bs : List Nat) : String :=
  ⟨bs.flatMap (fun b => [hexDigit (b / 16 % 16), hexDigit (b % 16)])⟩

/-! ## The Merkle verifier (`BaseLedger.get_root_of_merkle_tree`)

`double_sha256` lives in `torba.hash`, outside the engine; both the source
translation and the spec-side description below take it as a function
parameter, so the theorem holds for the real hash. -/

/-- Source translation: the `for i, branch in enumerate(branches)` loop. -/
def merkleFoldSrc (dsha : List Nat → List Nat) (branch_positions : Nat)
    (working : List Nat) (l : List (Nat × String)) : List Nat :=
  l.foldl (fun working ib =>
    let other_branch := (unhexlify ib.2).reverse
    let combined :=
      if (branch_positions >>> ib.1) &&& 1 == 1 then other_branch ++ working
      else working ++ other_branch
    dsha combined) working

def get_root_of_merkle_tree (dsha : List Nat → List Nat) (branches : List String)
    (branch_positions : Nat) (working_branch : List Nat) : String :=
  hexlify ((merkleFoldSrc dsha branch_positions working_branch branches.enum).reverse)

/-- The spec's description of the same fold: each branch is unhexlified and
byte-reversed; bit `i` of the mask (`(pos / 2 ^ i) % 2 = 1`) puts the
sibling on the left, otherwise on the right; the working hash becomes
`double_sha256` of the concatenation. -/
def merkleSpecGo (dsha : List Nat → List Nat) (branch_positions : Nat) :
    Nat → List Nat → List String → List Nat
  | _, working, [] => working
  | i, working, b :: bs =>
    let sibling := (unhexlify b).reverse
    merkleSpecGo dsha branch_positions (i + 1)
      (dsha (if (branch_positions / 2 ^ i) % 2 = 1 then sibling ++ working
             else working ++ sibling)) bs

def merkle_root_described (dsha : List Nat → List Nat) (branches : List String)
    (branch_positions : Nat) (working_branch : List Nat) : String :=
  hexlify ((merkleSpecGo dsha branch_positions 0 working_branch branches).reverse)

/-! ## Header sync (`BaseLedger.update_headers` / `process_header`)

Each run is modelled by the trace of its atomic actions on the header
store and the header-processing lock, so lock discipline is a property of
the trace.  `network.get_headers` is scripted by a finite list of
responses consumed in order (an empty script simply truncates the
observation); `headers.connect` appends, advancing the height by the
response's `count` as the Headers adapter contract specifies. -/

structure HdrResp where
  count : Int
  hex : String

inductive HAct
  | acquire
  | release
  | connect (height : Nat) (data : List Nat)
  | emit (height : Nat)
deriving DecidableEq

/-- `BaseLedger.update_headers`: the bulk catch-up loop.  Returns the trace
and the final header count.  Note: no lock action appears anywhere in it. -/
def update_headers (len : Nat) : List HdrResp → List HAct × Nat
  | [] => ([], len)
  | r :: rs =>
    if r.count ≤ 0 then ([], len)
    else
      let len' := len + r.count.toNat
      let rest := update_headers len' rs
      (HAct.connect len (unhexlify r.hex) :: HAct.emit len' :: rest.1, rest.2)

/-- `BaseLedger.process_header(response)`: acquire the header lock, then
either directly connect (push height = local height), fall back to the
bulk loop (push height above local), or ignore a stale push; the lock is
released in the `finally`. -/
def process_header (len : Nat) (pushHeight : Nat) (pushHex : String)
    (script : List HdrResp) : List HAct :=
  HAct.acquire ::
    ((if pushHeight = len then [HAct.connect len (unhexlify pushHex), HAct.emit (len + 1)]
      else if pushHeight > len then (update_headers len script).1
      else []) ++ [HAct.release])

/-- Lock balance of a trace: acquires minus releases. -/
def locksHeld (tr : List HAct) : Nat :=
  tr.foldl (fun n a => match a with
    | HAct.acquire => n + 1
    | HAct.release => n - 1
    | _ => n) 0

/-- How many locks are held while the `i`-th action of the trace runs. -/
def heldAt (tr : List HAct) (i : Nat) : Nat := locksHeld (tr.take i)

def isConnect : HAct → Bool
  | HAct.connect _ _ => true
  | _ => false

def isLockAct : HAct → Bool
  | HAct.acquire => true
  | HAct.release => true
  | _ => false

/-! ## The UTXO reservation gate (`BaseLedger.get_spendable_utxos`)

The body is a `try/except/finally` under `_utxo_reservation_lock`.  Its
three effectful collaborators are oracles: the estimator collection
(`get_effective_amount_estimators`, an `Except` since any database call
may raise), the coin selector (`CoinSelector(...).select()`, external to
this file), and `db.reserve_outputs`.  The model returns the action trace
and the call's outcome; a `reserveCall _ true` action is a committed
reservation, `reserveCall _ false` one whose database call raised. -/

inductive UAct
  | acquire
  | release
  | reserveCall (txos : List Nat) (ok : Bool)
deriving DecidableEq

def get_spendable_utxos (estimators : Except String (List Nat))
    (select : List Nat → Except String (List Nat))
    (reserve : Except String Unit) : List UAct × Except String (List Nat) :=
  match estimators with
  | .error e => ([UAct.acquire, UAct.release], .error e)
  | .ok txos =>
    match select txos with
    | .error e => ([UAct.acquire, UAct.release], .error e)
    | .ok spendables =>
      if spendables.isEmpty then ([UAct.acquire, UAct.release], .ok [])
      else
        match reserve with
        | .error e => ([UAct.acquire, UAct.reserveCall spendables false, UAct.release], .error e)
        | .ok _ => ([UAct.acquire, UAct.reserveCall spendables true, UAct.release], .ok spendables)

/-! ## Two concurrent `get_spendable_utxos` calls

A small-step harness for claim C5: two instances of the critical section
run under one cooperative `_utxo_reservation_lock`, interleaved by an
arbitrary schedule.  Each process steps through
`0` (awaiting the lock) → `1` (collect estimators and select) →
`2` (reserve the selection) → `3` (release) → `4` (returned).

Modelled from the spec: `CoinSelector.select` and the database adapter are
outside this file's source, so selection is any function returning a
subset of the available outputs, and `account.get_unspent_outputs` /
`db.reserve_outputs` follow the spec's database contract — an output
reserved in the database is no longer returned as unspent. -/

structure Proc where
  pc : Nat
  sel : List Nat
deriving DecidableEq

structure GState where
  lock : Option Bool
  reserved : List Nat
  p0 : Proc
  p1 : Proc
deriving DecidableEq

def procOf (s : GState) (i : Bool) : Proc := if i then s.p1 else s.p0

def setProc (s : GState) (i : Bool) (p : Proc) : GState :=
  if i then { s with p1 := p } else { s with p0 := p }

def gsuStep (selF : List Nat → List Nat) (allU : List Nat) (i : Bool) (s : GState) : GState :=
  let p := procOf s i
  if p.pc = 0 then
    if s.lock = none then setProc { s with lock := some i } i { p with pc := 1 } else s
  else if p.pc = 1 then
    setProc s i { pc := 2, sel := selF (allU.filter (fun u => !(s.reserved.contains u))) }
  else if p.pc = 2 then
    setProc { s with reserved := if p.sel.isEmpty then s.reserved else s.reserved ++ p.sel } i
      { p with pc := 3 }
  else if p.pc = 3 then
    setProc { s with lock := none } i { p with pc := 4 }
  else s

def gsuInit : GState := ⟨none, [], ⟨0, []⟩, ⟨0, []⟩⟩

def gsuRun (selF : List Nat → List Nat) (allU : List Nat) (sched : List Bool) : GState :=
  sched.foldl (fun s i => gsuStep selF allU i s) gsuInit

/-! ## Base58Check addresses

Modelled from the spec: `Base58` and `double_sha256` come from
`torba.hash`, which is not part of this source tree.  Base58 is the
standard big-integer conversion with the Bitcoin alphabet, each leading
zero byte becoming a leading `'1'`; `double_sha256` stays a function
parameter of the address codec. -/

def b58Alphabet : List Char :=
  "123456789ABCDEFGHJKLMNPQRSTUVWXYZabcdefghijkmnopqrstuvwxyz".data

def b58Char (d : Nat) : Char := b58Alphabet.getD d '?'

def b58Val (c : Char) : Nat := b58Alphabet.indexOf c

def beBytesToNat (bs : List Nat) : Nat := bs.foldl (fun a b => 256 * a + b) 0

def base58_encode (bs : List Nat) : String :=
  ⟨List.replicate (bs.takeWhile (fun b => b == 0)).length '1' ++
    ((toBaseDigits 58 (beBytesToNat bs)).map b58Char).reverse⟩

def base58_decode (s : String) : List Nat :=
  List.replicate (s.data.takeWhile (fun c => c == '1')).length 0 ++
    (toBaseDigits 256
      ((s.data.dropWhile (fun c => c == '1')).foldl (fun a c => 58 * a + b58Val c) 0)).reverse

/-- `BaseLedger.hash160_to_address`: Base58Check of
`pubkey_address_prefix ‖ h160 ‖ double_sha256(prefix ‖ h160)[0:4]`. -/
def hash160_to_address (dsha : List Nat → List Nat) (addrVersion h160 : List Nat) : String :=
  let raw_address := addrVersion ++ h160
  base58_encode (raw_address ++ (dsha raw_address).take 4)

/-- `BaseLedger.address_to_hash160`: Base58-decode and slice `[1:21]`. -/
def address_to_hash160 (address : String) : List Nat :=
  ((base58_decode address).drop 1).take 20

/-! ## The ledger registry (`LedgerRegistry`)

`registry_new` is `LedgerRegistry.__new__`: every class construction except
the base-less `BaseLedger` itself registers the class under its id,
asserting the id is fresh (`Except.error` models the `AssertionError`). -/

structure LedgerClass where
  name : String
  bases : List String
  symbol : String
  network_name : String
deriving DecidableEq

/-- `BaseLedger.get_id`: `'{}_{}'.format(symbol.lower(), network_name.lower())`. -/
def ledger_get_id (c : LedgerClass) : String :=
  c.symbol.toLower ++ "_" ++ c.network_name.toLower

def registry_new (ledgers : List (String × LedgerClass)) (c : LedgerClass) :
    Except String (List (String × LedgerClass)) :=
  if c.name = "BaseLedger" ∧ c.bases = [] then .ok ledgers
  else if (ledgers.lookup (ledger_get_id c)).isSome then
    .error "already registered"
  else .ok ((ledger_get_id c, c) :: ledgers)

def get_ledger_class (ledgers : List (String × LedgerClass)) (ledger_id : String) :
    Option LedgerClass :=
  ledgers.lookup ledger_id

/-! ## `BaseLedger.is_valid_transaction`

Headers are a dense list indexed by height (invariant 5 of the spec), so
`self.headers[height]` is `headers[height]?`; `none` models the lookup
raising.  The guard line
`height <= len(self.headers) or defer.returnValue(False)` early-returns
`False` only when `height > len(self.headers)`. -/

structure BlockHeader where
  merkle_root : String
deriving DecidableEq

structure MerkleResp where
  merkle : List String
  pos : Nat

def is_valid_transaction (dsha : List Nat → List Nat) (headers : List BlockHeader)
    (getMerkle : String → Nat → MerkleResp) (txid : String) (txhash : List Nat)
    (height : Nat) : Option Bool :=
  if height ≤ headers.length then
    let m := getMerkle txid height
    let merkle_root := get_root_of_merkle_tree dsha m.merkle m.pos txhash
    match headers[height]? with
    | some header => some (merkle_root = header.merkle_root)
    | none => none
  else some false

def cdbEmpty : String → Option (String × Nat) := fun _ => none

def cvalidTrue : String → Int → Bool := fun _ _ => true

def cdbVerified : String → Option (String × Nat) :=
  fun s => if s = "tt" then some ("rawtt", 1) else none

def cdb7 : String → Option (String × Nat) :=
  fun s => if s = "bb" then some ("rawbb", 1) else none
/-! ## Claim C5: no double selection under the reservation lock -/

structure GInv (s : GState) : Prop where
  pc0le : s.p0.pc ≤ 4
  pc1le : s.p1.pc ≤ 4
  lock0 : s.p0.pc = 1 ∨ s.p0.pc = 2 ∨ s.p0.pc = 3 → s.lock = some false
  lock1 : s.p1.pc = 1 ∨ s.p1.pc = 2 ∨ s.p1.pc = 3 → s.lock = some true
  res0 : s.p0.pc = 3 ∨ s.p0.pc = 4 → s.p0.sel = [] ∨ ∀ u ∈ s.p0.sel, u ∈ s.reserved
  res1 : s.p1.pc = 3 ∨ s.p1.pc = 4 → s.p1.sel = [] ∨ ∀ u ∈ s.p1.sel, u ∈ s.reserved
  disj : 2 ≤ s.p0.pc → 2 ≤ s.p1.pc → ∀ u ∈ s.p0.sel, u ∉ s.p1.sel

def selTakeOne : List Nat → List Nat := fun xs => xs.take 1

def dsha0 : List Nat → List Nat := fun _ => [0, 0, 0, 0]

def z20 : List Nat := List.replicate 20 0

theorem toBaseDigitsRec_eq_digits {b : Nat} (hb : 1 < b) :
    ∀ fuel n, n ≤ fuel → toBaseDigitsRec b fuel n = Nat.digits b n := by
  intro fuel
  induction fuel with
  | zero =>
    intro n hn
    interval_cases n
    simp [toBaseDigitsRec]
  | succ fuel ih =>
    intro n hn
    by_cases h0 : n = 0
    · simp [toBaseDigitsRec, h0]
    · rw [toBaseDigitsRec, if_neg h0, Nat.digits_def' hb (Nat.pos_of_ne_zero h0)]
      congr 1
      exact ih (n / b) (by
        have := Nat.div_lt_self (Nat.pos_of_ne_zero h0) hb
        omega)

theorem toBaseDigits_eq_digits {b : Nat} (hb : 1 < b) (n : Nat) :
    toBaseDigits b n = Nat.digits b n :=
  toBaseDigitsRec_eq_digits hb n n (Nat.le_refl n)

/-- Horner evaluation of a big-endian digit list read left to right. -/
theorem foldl_base_reverse (B : Nat) (ds : List Nat) :
    (ds.reverse).foldl (fun a d => B * a + d) 0 = Nat.ofDigits B ds := by
  induction ds with
  | nil => simp [Nat.ofDigits]
  | cons d ds ih =>
    rw [List.reverse_cons, List.foldl_append]
    simp only [List.foldl_cons, List.foldl_nil, Nat.ofDigits_cons, ih]
    ring

theorem charVal_digitToChar {d : Nat} (hd : d < 10) : charVal (digitToChar d) = d := by
  interval_cases d <;> decide

theorem digitToChar_ne_colon {d : Nat} (hd : d < 10) : digitToChar d ≠ ':' := by
  interval_cases d <;> decide

theorem digitToChar_ne_minus {d : Nat} (hd : d < 10) : digitToChar d ≠ '-' := by
  interval_cases d <;> decide

theorem strToNatChars_natToChars (n : Nat) : strToNatChars (natToChars n) = n := by
  unfold natToChars
  by_cases h0 : n = 0
  · subst h0
    decide
  · rw [if_neg h0]
    unfold strToNatChars
    rw [List.foldl_reverse, toBaseDigits_eq_digits (by norm_num)]
    have : ∀ ds : List Nat, (∀ d ∈ ds, d < 10) →
        ((ds.map digitToChar).foldr (fun c a => 10 * a + charVal c) 0) = Nat.ofDigits 10 ds := by
      intro ds hds
      induction ds with
      | nil => simp [Nat.ofDigits]
      | cons d ds ih =>
        simp only [List.map_cons, List.foldr_cons, Nat.ofDigits_cons]
        rw [ih (fun x hx => hds x (List.mem_cons_of_mem d hx)),
          charVal_digitToChar (hds d (List.mem_cons_self d ds))]
        ring
    rw [this _ (fun d hd => Nat.digits_lt_base (by norm_num) hd), Nat.ofDigits_digits]

theorem natToChars_head_ne_minus (n : Nat) :
    ∀ c, c ∈ (natToChars n).head? → c ≠ '-' := by
  unfold natToChars
  by_cases h0 : n = 0
  · subst h0
    decide
  · rw [if_neg h0]
    intro c hc
    rcases hl : ((toBaseDigits 10 n).map digitToChar).reverse with _ | ⟨x, xs⟩
    · rw [hl] at hc; simp at hc
    · rw [hl] at hc
      simp only [List.head?_cons, Option.mem_def, Option.some.injEq] at hc
      have hx : x ∈ ((toBaseDigits 10 n).map digitToChar).reverse := by
        rw [hl]; exact List.mem_cons_self _ _
      rw [List.mem_reverse] at hx
      obtain ⟨d, hd, hdc⟩ := List.mem_map.mp hx
      rw [toBaseDigits_eq_digits (by norm_num)] at hd
      rw [← hc, ← hdc]
      exact digitToChar_ne_minus (Nat.digits_lt_base (by norm_num) hd)

theorem strToIntChars_intToStrChars (i : Int) : strToIntChars (intToStrChars i) = i := by
  unfold intToStrChars
  by_cases hneg : i < 0
  · rw [if_pos hneg]
    show strToIntChars ('-' :: natToChars i.natAbs) = i
    simp only [strToIntChars, if_pos rfl, if_true]
    rw [strToNatChars_natToChars]
    omega
  · rw [if_neg hneg]
    have hrt := strToNatChars_natToChars i.toNat
    rcases hl : natToChars i.toNat with _ | ⟨c, rest⟩
    · rw [hl] at hrt
      have : (0 : Nat) = i.toNat := hrt
      simp only [strToIntChars]
      omega
    · have hc : c ≠ '-' := natToChars_head_ne_minus i.toNat c (by rw [hl]; rfl)
      rw [hl] at hrt
      simp only [strToIntChars, if_neg hc]
      rw [hrt]
      omega

theorem colon_not_mem_natToChars (n : Nat) : ':' ∉ natToChars n := by
  unfold natToChars
  by_cases h0 : n = 0
  · simp [h0]
  · rw [if_neg h0]
    intro hc
    rw [List.mem_reverse] at hc
    obtain ⟨d, hd, hdc⟩ := List.mem_map.mp hc
    rw [toBaseDigits_eq_digits (by norm_num)] at hd
    exact digitToChar_ne_colon (Nat.digits_lt_base (by norm_num) hd) hdc

theorem colon_not_mem_intToStrChars (i : Int) : ':' ∉ intToStrChars i := by
  unfold intToStrChars
  by_cases hneg : i < 0
  · rw [if_pos hneg]
    intro hc
    rcases List.mem_cons.mp hc with h | h
    · exact absurd h.symm (by decide)
    · exact colon_not_mem_natToChars _ h
  · rw [if_neg hneg]
    exact colon_not_mem_natToChars _

theorem splitCharAux_token (c : Char) (t rest : List Char) (ht : c ∉ t) :
    ∀ cur, splitCharAux c cur (t ++ c :: rest) = (cur.reverse ++ t) :: splitCharAux c [] rest := by
  induction t with
  | nil =>
    intro cur
    simp [splitCharAux]
  | cons x t ih =>
    intro cur
    have hx : x ≠ c := fun h => ht (h ▸ List.mem_cons_self x t)
    have ht' : c ∉ t := fun h => ht (List.mem_cons_of_mem x h)
    simp only [List.cons_append, List.append_eq, splitCharAux, if_neg hx]
    rw [ih ht' (x :: cur)]
    simp

theorem splitChar_histChars (l : List (String × Int))
    (hl : ∀ p ∈ l, ':' ∉ (p.1 : String).data) :
    splitChar ':' (histChars l) = l.flatMap (fun p => [p.1.data, intToStrChars p.2]) ++ [[]] := by
  induction l with
  | nil => simp [histChars, splitChar, splitCharAux]
  | cons p rest ih =>
    obtain ⟨t, h⟩ := p
    show splitChar ':' (t.data ++ ':' :: (intToStrChars h ++ ':' :: histChars rest)) = _
    unfold splitChar
    rw [splitCharAux_token ':' t.data _ (hl (t, h) (List.mem_cons_self _ _)) []]
    rw [splitCharAux_token ':' (intToStrChars h) _ (colon_not_mem_intToStrChars h) []]
    rw [show splitCharAux ':' [] (histChars rest) = splitChar ':' (histChars rest) from rfl]
    rw [ih (fun q hq => hl q (List.mem_cons_of_mem _ hq))]
    simp

theorem get_local_history_historyString (l : List (String × Int))
    (hl : ∀ p ∈ l, ':' ∉ (p.1 : String).data) :
    get_local_history (historyString l) = l := by
  unfold get_local_history historyString
  show pairUp ((splitChar ':' (histChars l)).dropLast) = l
  rw [splitChar_histChars l hl, List.dropLast_concat]
  induction l with
  | nil => rfl
  | cons p rest ih =>
    obtain ⟨t, h⟩ := p
    simp only [List.flatMap_cons, List.cons_append, List.nil_append]
    show pairUp (t.data :: intToStrChars h :: _) = _
    unfold pairUp
    rw [ih (fun q hq => hl q (List.mem_cons_of_mem _ hq))]
    rw [strToIntChars_intToStrChars]

/-! ## Claim C2: the Merkle root fold -/

theorem merkleFoldSrc_enumFrom (dsha : List Nat → List Nat) (pos : Nat) :
    ∀ (bs : List String) (i : Nat) (working : List Nat),
      merkleFoldSrc dsha pos working (List.enumFrom i bs) = merkleSpecGo dsha pos i working bs := by
  intro bs
  induction bs with
  | nil => intro i working; rfl
  | cons b bs ih =>
    intro i working
    rw [List.enumFrom_cons]
    show merkleFoldSrc dsha pos _ _ = _
    unfold merkleFoldSrc merkleSpecGo
    simp only [List.foldl_cons]
    rw [show ∀ w, List.foldl _ w (List.enumFrom (i + 1) bs) =
          merkleFoldSrc dsha pos w (List.enumFrom (i + 1) bs) from fun w => rfl, ih]
    congr 2
    have hsh : pos >>> i = pos / 2 ^ i := Nat.shiftRight_eq_div_pow pos i
    have hand : pos >>> i &&& 1 = (pos >>> i) % 2 := Nat.and_one_is_mod (pos >>> i)
    by_cases hbit : (pos / 2 ^ i) % 2 = 1
    · rw [if_pos hbit, if_pos (by rw [hand, hsh, hbit]; rfl)]
    · rw [if_neg hbit, if_neg (by rw [hand, hsh]; simpa using hbit)]

/-- C2: `get_root_of_merkle_tree` folds the branches exactly as the spec
describes — each branch unhexlified and byte-reversed, placed on the left
of the working hash when bit `i` of `branch_positions` is set and on the
right otherwise, the working hash replaced by `double_sha256` of the
concatenation — and returns the final working hash byte-reversed and
hex-encoded.  Stated for every hash function, so it holds for the real
`double_sha256`. -/
theorem C2_get_root_of_merkle_tree_follows_spec (dsha : List Nat → List Nat)
    (branches : List String) (branch_positions : Nat) (working_branch : List Nat) :
    get_root_of_merkle_tree dsha branches branch_positions working_branch =
      merkle_root_described dsha branches branch_positions working_branch := by
  unfold get_root_of_merkle_tree merkle_root_described
  rw [show branches.enum = List.enumFrom 0 branches from rfl,
    merkleFoldSrc_enumFrom dsha branch_positions branches 0 working_branch]

/-! ## Claim C10: the `is_valid_transaction` guard is off by one -/

/-- C10: the guard `height <= len(self.headers)` accepts
`height = len(self.headers)`, where the header lookup has no entry (the
model returns `none`, the source raises); the guard early-returns `False`
only for heights strictly greater than the header count. -/
theorem C10_is_valid_transaction_guard_off_by_one (dsha : List Nat → List Nat)
    (headers : List BlockHeader) (getMerkle : String → Nat → MerkleResp)
    (txid : String) (txhash : List Nat) :
    is_valid_transaction dsha headers getMerkle txid txhash headers.length = none ∧
      ∀ height, headers.length < height →
        is_valid_transaction dsha headers getMerkle txid txhash height = some false := by
  constructor
  · unfold is_valid_transaction
    rw [if_pos (Nat.le_refl _)]
    simp [List.getElem?_eq_none (Nat.le_refl headers.length)]
  · intro height hh
    unfold is_valid_transaction
    rw [if_neg (by omega)]

/-- Witness for C10 at a concrete ledger state: one header, lookup at
height 1 crashes, height 2 is early-rejected. -/
theorem C10_witness :
    is_valid_transaction (fun l => l) [⟨"r"⟩] (fun _ _ => ⟨[], 0⟩) "t" [] 1 = none ∧
      is_valid_transaction (fun l => l) [⟨"r"⟩] (fun _ _ => ⟨[], 0⟩) "t" [] 2 = some false :=
  ⟨(C10_is_valid_transaction_guard_off_by_one (fun l => l) [⟨"r"⟩] (fun _ _ => ⟨[], 0⟩) "t" []).1,
   (C10_is_valid_transaction_guard_off_by_one (fun l => l) [⟨"r"⟩] (fun _ _ => ⟨[], 0⟩) "t" []).2
     2 (by decide)⟩

/-! ## Claim C9: the ledger registry -/

/-- C9: registering the base-less `BaseLedger` leaves the registry
untouched; constructing a variant whose id is already registered fails
with the assertion error; a fresh variant is added and is retrievable by
its id through `get_ledger_class`, without disturbing other ids. -/
theorem C9_registry_unique (m : List (String × LedgerClass)) (c : LedgerClass) :
    (c.name = "BaseLedger" → c.bases = [] → registry_new m c = .ok m) ∧
      (¬(c.name = "BaseLedger" ∧ c.bases = []) → (m.lookup (ledger_get_id c)).isSome →
        registry_new m c = .error "already registered") ∧
      (¬(c.name = "BaseLedger" ∧ c.bases = []) → m.lookup (ledger_get_id c) = none →
        registry_new m c = .ok ((ledger_get_id c, c) :: m) ∧
          get_ledger_class ((ledger_get_id c, c) :: m) (ledger_get_id c) = some c ∧
          ∀ id : String, id ≠ ledger_get_id c →
            get_ledger_class ((ledger_get_id c, c) :: m) id = get_ledger_class m id) := by
  refine ⟨fun h1 h2 => ?_, fun hb hs => ?_, fun hb hn => ⟨?_, ?_, fun id hid => ?_⟩⟩
  · unfold registry_new
    rw [if_pos ⟨h1, h2⟩]
  · unfold registry_new
    rw [if_neg hb, if_pos hs]
  · unfold registry_new
    rw [if_neg hb, if_neg (by rw [hn]; simp)]
  · unfold get_ledger_class
    simp [List.lookup]
  · unfold get_ledger_class
    simp only [List.lookup]
    rw [show (id == ledger_get_id c) = false from beq_eq_false_iff_ne.mpr hid]

/-! ## Claim C4: the reservation gate's error handling -/

/-- C4: in `get_spendable_utxos`, an empty coin selection means
`reserve_outputs` is never called and the call returns the empty result;
any raised exception propagates with no committed reservation; and on
every exit path the trace opens by acquiring `_utxo_reservation_lock` and
closes by releasing it. -/
theorem C4_get_spendable_utxos_error_handling (estimators : Except String (List Nat))
    (select : List Nat → Except String (List Nat)) (reserve : Except String Unit) :
    ((∃ txos, estimators = .ok txos ∧ select txos = .ok []) →
        (∀ ts b, UAct.reserveCall ts b ∉ (get_spendable_utxos estimators select reserve).1) ∧
          (get_spendable_utxos estimators select reserve).2 = .ok []) ∧
      ((∃ e, (get_spendable_utxos estimators select reserve).2 = .error e) →
        ∀ ts, UAct.reserveCall ts true ∉ (get_spendable_utxos estimators select reserve).1) ∧
      (get_spendable_utxos estimators select reserve).1.head? = some UAct.acquire ∧
      (get_spendable_utxos estimators select reserve).1.getLast? = some UAct.release := by
  rcases estimators with e | txos
  · simp only [get_spendable_utxos]
    refine ⟨?_, ?_, rfl, by simp⟩
    · rintro ⟨txos, h, -⟩
      cases h
    · rintro - ts
      simp
  · rcases hsel : select txos with e | spendables
    · simp only [get_spendable_utxos, hsel]
      refine ⟨?_, ?_, rfl, by simp⟩
      · rintro ⟨txos2, h, hsel2⟩
        obtain rfl : txos = txos2 := by simpa using h
        rw [hsel] at hsel2
        cases hsel2
      · rintro - ts
        simp
    · by_cases hemp : spendables.isEmpty
      · simp only [get_spendable_utxos, hsel, if_pos hemp]
        refine ⟨fun h => ⟨fun ts b => by simp, trivial⟩, ?_, rfl, by simp⟩
        rintro ⟨e, he⟩ ts
        cases he
      · rcases reserve with e | u
        · simp only [get_spendable_utxos, hsel, if_neg hemp]
          refine ⟨?_, ?_, rfl, by simp⟩
          · rintro ⟨txos2, h, hsel2⟩
            obtain rfl : txos = txos2 := by simpa using h
            rw [hsel] at hsel2
            obtain rfl : spendables = [] := by simpa using hsel2
            simp at hemp
          · rintro - ts
            simp
        · simp only [get_spendable_utxos, hsel, if_neg hemp]
          refine ⟨?_, ?_, rfl, by simp⟩
          · rintro ⟨txos2, h, hsel2⟩
            obtain rfl : txos = txos2 := by simpa using h
            rw [hsel] at hsel2
            obtain rfl : spendables = [] := by simpa using hsel2
            simp at hemp
          · rintro ⟨e, he⟩ ts
            cases he

/-! ## Shared facts about the `update_history` loop -/

theorem update_history_go_saves_history (address : String)
    (dbTx : String → Option (String × Nat)) (validTx : String → Int → Bool)
    (localHist : List (String × Int)) :
    ∀ (rest : List (String × Int)) (i : Nat) (synced : List (String × Int)),
      ∀ s ∈ (update_history_go address dbTx validTx localHist i synced rest).saves,
        ∃ n, 0 < n ∧ n ≤ rest.length ∧
          s.history = historyString (synced ++ rest.take n) := by
  intro rest
  induction rest with
  | nil => intro i synced s hs; exact absurd hs (by simp [update_history_go])
  | cons e rest ih =>
    intro i synced s hs
    unfold update_history_go at hs
    by_cases hskip : skipAt localHist i e
    · rw [if_pos hskip] at hs
      obtain ⟨n, hn0, hnl, hh⟩ := ih (i + 1) (synced ++ [e]) s hs
      exact ⟨n + 1, by omega, by simpa using hnl,
        by rw [hh]; simp [List.take_succ_cons]⟩
    · rw [if_neg hskip] at hs
      rcases List.mem_cons.mp hs with h | h
      · refine ⟨1, by omega, by simp, ?_⟩
        rw [h]
        simp [List.take_succ_cons]
      · obtain ⟨n, hn0, hnl, hh⟩ := ih (i + 1) (synced ++ [e]) s h
        exact ⟨n + 1, by omega, by simpa using hnl,
          by rw [hh]; simp [List.take_succ_cons]⟩

theorem getLast?_cons_of_getLast? {α : Type} (a : α) {l : List α} {v : α}
    (h : l.getLast? = some v) : (a :: l).getLast? = some v := by
  cases l with
  | nil => simp at h
  | cons b t => rw [← h]; rfl

/-- When the loop's final entry is not skipped, the last save writes the
full concatenation. -/
theorem update_history_go_last_save (address : String)
    (dbTx : String → Option (String × Nat)) (validTx : String → Int → Bool)
    (localHist : List (String × Int)) (e : String × Int) :
    ∀ (rest : List (String × Int)) (i : Nat) (synced : List (String × Int)),
      skipAt localHist (i + rest.length) e = false →
      ((update_history_go address dbTx validTx localHist i synced
          (rest ++ [e])).saves.map (fun s => s.history)).getLast?
        = some (historyString (synced ++ rest ++ [e])) := by
  intro rest
  induction rest with
  | nil =>
    intro i synced hskip
    show ((update_history_go address dbTx validTx localHist i synced [e]).saves.map _).getLast? = _
    unfold update_history_go
    rw [if_neg (by simpa using hskip)]
    simp [update_history_go]
  | cons x rest ih =>
    intro i synced hskip
    have hlen : (i + 1) + rest.length = i + (x :: rest).length := by
      simp [List.length_cons]; omega
    show ((update_history_go address dbTx validTx localHist i synced
        (x :: (rest ++ [e]))).saves.map _).getLast? = _
    unfold update_history_go
    by_cases hx : skipAt localHist i x
    · rw [if_pos hx]
      rw [ih (i + 1) (synced ++ [x]) (by rw [hlen]; exact hskip)]
      congr 1
      simp
    · rw [if_neg hx]
      simp only [List.map_cons]
      apply getLast?_cons_of_getLast?
      rw [ih (i + 1) (synced ++ [x]) (by rw [hlen]; exact hskip)]
      congr 1
      simp

/-- When every position is a skip, the loop performs nothing. -/
theorem update_history_go_all_skip (address : String)
    (dbTx : String → Option (String × Nat)) (validTx : String → Int → Bool)
    (localHist : List (String × Int)) :
    ∀ (rest : List (String × Int)) (i : Nat) (synced : List (String × Int)),
      (∀ j (hj : j < rest.length), skipAt localHist (i + j) (rest.get ⟨j, hj⟩) = true) →
      update_history_go address dbTx validTx localHist i synced rest = ⟨[], [], []⟩ := by
  intro rest
  induction rest with
  | nil => intro i synced _; rfl
  | cons e rest ih =>
    intro i synced hall
    unfold update_history_go
    rw [if_pos (by simpa using hall 0 (by simp))]
    exact ih (i + 1) (synced ++ [e]) (fun j hj => by
      have h2 := hall (j + 1) (by simpa using Nat.succ_lt_succ hj)
      rw [show i + 1 + j = i + (j + 1) from by omega]
      simpa using h2)

/-! ## Claim C1: the cumulative history string -/

/-- C1 (amended): every database save performed by `update_history` writes
the concatenation of `'<txid>:<height>:'` over the prefix of the remote
list processed so far; when the remote list is empty no save is performed
at all and the stored history is unchanged; and whenever the final remote
entry is actually processed (not skipped as matching the local entry), the
stored history after the run equals the concatenation over the full remote
list. -/
theorem C1_update_history_cumulative_writes (address : String)
    (dbTx : String → Option (String × Nat)) (validTx : String → Int → Bool)
    (stored : String) (remote : List (String × Int)) :
    (∀ s ∈ (update_history address dbTx validTx stored remote).saves,
        ∃ n, 0 < n ∧ n ≤ remote.length ∧ s.history = historyString (remote.take n)) ∧
      (remote = [] →
        (update_history address dbTx validTx stored remote).saves = [] ∧
          stored_after stored (update_history address dbTx validTx stored remote) = stored) ∧
      (∀ e rest, remote = rest ++ [e] →
        skipAt (get_local_history stored) rest.length e = false →
        stored_after stored (update_history address dbTx validTx stored remote) =
          historyString remote) := by
  refine ⟨?_, ?_, ?_⟩
  · intro s hs
    have h := update_history_go_saves_history address dbTx validTx
      (get_local_history stored) remote 0 [] s hs
    simpa using h
  · rintro rfl
    exact ⟨rfl, rfl⟩
  · rintro e rest rfl hskip
    have h := update_history_go_last_save address dbTx validTx
      (get_local_history stored) e rest 0 [] (by rw [Nat.zero_add]; exact hskip)
    unfold stored_after update_history
    rw [h]
    simp

/-- C1 counterexample: with an empty remote history and a non-empty stored
history, `update_history` performs no database save, so no empty cumulative
string is written and the stored history stays `"aa:1:"`, not `""`. -/
theorem C1_counterexample :
    (update_history "addr" cdbEmpty cvalidTrue "aa:1:" []).saves = [] ∧
      stored_after "aa:1:" (update_history "addr" cdbEmpty cvalidTrue "aa:1:" []) = "aa:1:" ∧
      ("aa:1:" : String) ≠ "" :=
  ⟨rfl, rfl, by decide⟩

/-! ## Claim C6: height-zero entries -/

/-- C6 (amended): a remote entry with height `0` that the loop processes
triggers no Merkle-verification call, is nevertheless saved, and the
`is_verified` value stored and published equals the database's existing
value for the transaction — `0` when the transaction is new, but carried
through unchanged (possibly `1`) when the database already holds it. -/
theorem C6_height_zero_entries (address : String)
    (dbTx : String → Option (String × Nat)) (validTx : String → Int → Bool)
    (localHist : List (String × Int)) (i : Nat) (synced : List (String × Int))
    (e : String × Int) (rest : List (String × Int))
    (hzero : e.2 = 0) (hskip : skipAt localHist i e = false) :
    update_history_go address dbTx validTx localHist i synced (e :: rest) =
      ⟨⟨(match dbTx e.1 with | none => some "insert" | some _ => none), e.1, e.2,
          (match dbTx e.1 with | none => 0 | some (_, v) => v),
          historyString (synced ++ [e])⟩ ::
          (update_history_go address dbTx validTx localHist (i + 1) (synced ++ [e]) rest).saves,
        ⟨address, e.1, e.2,
          (match dbTx e.1 with | none => 0 | some (_, v) => v)⟩ ::
          (update_history_go address dbTx validTx localHist (i + 1) (synced ++ [e]) rest).events,
        (update_history_go address dbTx validTx localHist (i + 1) (synced ++ [e]) rest).verifyCalls⟩ := by
  rcases e with ⟨t, h⟩
  have h0 : h = 0 := hzero
  subst h0
  conv_lhs => rw [update_history_go]
  rw [if_neg (by simp [hskip])]
  simp

/-- Witness for C6: a fresh height-zero transaction is inserted with
`is_verified = 0`, no verification call, one save, one event. -/
theorem C6_witness :
    update_history_go "A" cdbEmpty cvalidTrue [] 0 [] [("tt", 0)] =
      ⟨[⟨some "insert", "tt", 0, 0, historyString [("tt", 0)]⟩], [⟨"A", "tt", 0, 0⟩], []⟩ := by
  have h := C6_height_zero_entries "A" cdbEmpty cvalidTrue [] 0 [] ("tt", 0) [] rfl rfl
  exact h.trans rfl

/-- C6 counterexample: when the database already holds the transaction with
`is_verified = 1` and the remote height is `0`, the published and stored
`is_verified` is `1`, not `0` as the claim states (no Merkle call is made
either way). -/
theorem C6_counterexample :
    (update_history "A" cdbVerified cvalidTrue "" [("tt", 0)]).events =
        [⟨"A", "tt", 0, 1⟩] ∧
      (update_history "A" cdbVerified cvalidTrue "" [("tt", 0)]).verifyCalls = [] ∧
      ¬ ∀ ev ∈ (update_history "A" cdbVerified cvalidTrue "" [("tt", 0)]).events,
          ev.verified = 0 := by
  refine ⟨rfl, rfl, ?_⟩
  intro h
  exact absurd (h ⟨"A", "tt", 0, 1⟩ (by rw [show (update_history "A" cdbVerified cvalidTrue ""
    [("tt", 0)]).events = [⟨"A", "tt", 0, 1⟩] from rfl]; exact List.mem_cons_self _ _)) (by decide)

/-! ## Claim C7: rerunning with an unchanged remote history -/

/-- C7 (amended): when the first run processes (does not skip) the final
remote entry, a second `update_history` run with the remote history
unchanged performs no database saves, publishes no transaction events and
makes no verification calls — every remote entry matches the corresponding
local entry and is skipped.  (Well-formedness: transaction ids contain no
`':'`, as hex ids never do.  Without the processed-final-entry condition
the property fails, see the counterexample.) -/
theorem C7_second_run_silent (addr1 addr2 : String)
    (db1 db2 : String → Option (String × Nat)) (v1 v2 : String → Int → Bool)
    (stored : String) (rest : List (String × Int)) (e : String × Int)
    (hcolon : ∀ p ∈ rest ++ [e], ':' ∉ (p.1 : String).data)
    (hskip : skipAt (get_local_history stored) rest.length e = false) :
    update_history addr2 db2 v2
        (stored_after stored (update_history addr1 db1 v1 stored (rest ++ [e])))
        (rest ++ [e]) = ⟨[], [], []⟩ := by
  have h1 : stored_after stored (update_history addr1 db1 v1 stored (rest ++ [e])) =
      historyString (rest ++ [e]) := by
    have h := update_history_go_last_save addr1 db1 v1
      (get_local_history stored) e rest 0 [] (by rw [Nat.zero_add]; exact hskip)
    unfold stored_after update_history
    rw [h]
    simp
  rw [h1]
  unfold update_history
  rw [get_local_history_historyString _ hcolon]
  apply update_history_go_all_skip
  intro j hj
  unfold skipAt
  rw [Nat.zero_add]
  have hj2 : j < rest.length + 1 := by simpa using hj
  simp [List.getElem?_eq_getElem hj, hj2]

/-- Witness for C7: one fresh entry is processed by the first run; the
second run is silent. -/
theorem C7_witness :
    update_history "B" cdbEmpty cvalidTrue
        (stored_after "" (update_history "A" cdbEmpty cvalidTrue "" [("aa", 1)]))
        [("aa", 1)] = ⟨[], [], []⟩ :=
  C7_second_run_silent "A" "B" cdbEmpty cdbEmpty cvalidTrue cvalidTrue ""
    [] ("aa", 1) (by decide) rfl

/-- C7 counterexample: remote `[("cc",3), ("bb",2)]` against stored history
`"aa:1:bb:2:"`.  The first run processes `cc` (saving `"cc:3:"`) and skips
`bb` as matching local position 1, so the stored history ends up `"cc:3:"`;
the second run then re-processes `bb` — it saves and publishes an event,
refuting the claim that a second run with unchanged remote history is
silent. -/
theorem C7_counterexample :
    (update_history "A" cdb7 cvalidTrue
        (stored_after "aa:1:bb:2:"
          (update_history "A" cdb7 cvalidTrue "aa:1:bb:2:" [("cc", 3), ("bb", 2)]))
        [("cc", 3), ("bb", 2)]).events ≠ [] ∧
      (update_history "A" cdb7 cvalidTrue
        (stored_after "aa:1:bb:2:"
          (update_history "A" cdb7 cvalidTrue "aa:1:bb:2:" [("cc", 3), ("bb", 2)]))
        [("cc", 3), ("bb", 2)]).saves ≠ [] := by
  decide
/-! ## Claim C3: header appends and the header-processing lock -/

theorem foldl_locks_of_lock_free (l : List HAct) (hfree : ∀ a ∈ l, isLockAct a = false) :
    ∀ n : Nat, l.foldl (fun n a => match a with
      | HAct.acquire => n + 1
      | HAct.release => n - 1
      | _ => n) n = n := by
  induction l with
  | nil => intro n; rfl
  | cons a l ih =>
    intro n
    have ha := hfree a (List.mem_cons_self a l)
    have hl := fun x hx => hfree x (List.mem_cons_of_mem a hx)
    cases a with
    | acquire => simp [isLockAct] at ha
    | release => simp [isLockAct] at ha
    | connect h d => exact ih hl n
    | emit h => exact ih hl n

theorem update_headers_lock_free (rs : List HdrResp) :
    ∀ len, ∀ a ∈ (update_headers len rs).1, isLockAct a = false := by
  induction rs with
  | nil => intro len a ha; exact absurd ha (by simp [update_headers])
  | cons r rs ih =>
    intro len a ha
    unfold update_headers at ha
    by_cases hc : r.count ≤ 0
    · rw [if_pos hc] at ha
      exact absurd ha (by simp)
    · rw [if_neg hc] at ha
      rcases List.mem_cons.mp ha with h | h
      · subst h; rfl
      · rcases List.mem_cons.mp h with h2 | h2
        · subst h2; rfl
        · exact ih (len + r.count.toNat) a h2

/-- C3 (amended): every header append performed by `process_header` —
including those of the bulk `update_headers` loop when `process_header`
falls back to it — runs while `_header_processing_lock` is held.
`update_headers` itself, however, takes no lock (see the counterexample),
so a direct bulk catch-up call appends without it. -/
theorem C3_process_header_connects_hold_lock (len pushHeight : Nat) (pushHex : String)
    (script : List HdrResp) :
    ∀ i h d, (process_header len pushHeight pushHex script)[i]? = some (HAct.connect h d) →
      heldAt (process_header len pushHeight pushHex script) i = 1 := by
  intro i h d hi
  unfold process_header at hi ⊢
  set mid := (if pushHeight = len then [HAct.connect len (unhexlify pushHex), HAct.emit (len + 1)]
      else if pushHeight > len then (update_headers len script).1
      else []) with hmid
  have hmidfree : ∀ a ∈ mid, isLockAct a = false := by
    rw [hmid]
    split
    · intro a ha
      rcases List.mem_cons.mp ha with h1 | h1
      · subst h1; rfl
      · rcases List.mem_cons.mp h1 with h2 | h2
        · subst h2; rfl
        · exact absurd h2 (by simp)
    · split
      · exact update_headers_lock_free script len
      · intro a ha; exact absurd ha (by simp)
  cases i with
  | zero =>
    rw [List.getElem?_cons_zero] at hi
    exact absurd hi (by simp)
  | succ j =>
    rw [List.getElem?_cons_succ] at hi
    by_cases hj : j < mid.length
    · unfold heldAt locksHeld
      rw [List.take_succ_cons, List.take_append_of_le_length (Nat.le_of_lt hj)]
      show List.foldl _ (0 + 1) (mid.take j) = 1
      exact foldl_locks_of_lock_free (mid.take j)
        (fun a ha => hmidfree a (List.mem_of_mem_take ha)) 1
    · exfalso
      rw [List.getElem?_append_right (Nat.le_of_not_lt hj)] at hi
      rcases Nat.lt_or_ge (j - mid.length) 1 with h1 | h1
      · interval_cases h2 : j - mid.length
        · rw [List.getElem?_cons_zero] at hi
          exact absurd hi (by simp)
      · rw [List.getElem?_eq_none (by simpa using h1)] at hi
        exact absurd hi (by simp)

/-- C3 counterexample: a bulk `update_headers` run (as `BaseLedger.start`
invokes it) performs a header append with no lock action anywhere in its
trace — the append at position 0 runs with zero locks held, refuting the
claim that both entry points append under `_header_processing_lock`. -/
theorem C3_counterexample :
    (update_headers 0 [⟨1, "00"⟩]).1 = [HAct.connect 0 [0], HAct.emit 1] ∧
      heldAt (update_headers 0 [⟨1, "00"⟩]).1 0 = 0 ∧
      isConnect (HAct.connect 0 [0]) = true := by
  decide

/-- Witness for C3: a push at exactly the local height appends at trace
position 1 with the lock held. -/
theorem C3_witness : heldAt (process_header 0 0 "00" []) 1 = 1 :=
  C3_process_header_connects_hold_lock 0 0 "00" [] 1 0 [0] (by decide)

theorem gsuStep_inv (selF : List Nat → List Nat)
    (hsel : ∀ xs, ∀ u ∈ selF xs, u ∈ xs) (allU : List Nat) (i : Bool) (s : GState)
    (hinv : GInv s) : GInv (gsuStep selF allU i s) := by
  cases i
  · by_cases h0 : s.p0.pc = 0
    · by_cases hl : s.lock = none
      · have hs : gsuStep selF allU false s =
            { s with lock := some false, p0 := ⟨1, s.p0.sel⟩ } := by
          simp [gsuStep, procOf, setProc, h0, hl]
        rw [hs]
        refine ⟨by simp, hinv.pc1le, fun _ => rfl, fun h => ?_,
          fun h => absurd h (by simp), fun h => hinv.res1 h,
          fun h2 _ => absurd h2 (by simp)⟩
        exact absurd (hl.symm.trans (hinv.lock1 h)) (by simp)
      · have hs : gsuStep selF allU false s = s := by
          simp [gsuStep, procOf, setProc, h0, hl]
        rw [hs]; exact hinv
    · by_cases h1 : s.p0.pc = 1
      · have hs : gsuStep selF allU false s =
            { s with p0 := ⟨2, selF (allU.filter (fun u => !(s.reserved.contains u)))⟩ } := by
          simp [gsuStep, procOf, setProc, h0, h1]
        rw [hs]
        refine ⟨by simp, hinv.pc1le, fun _ => hinv.lock0 (Or.inl h1),
          fun h => hinv.lock1 h, fun h => absurd h (by simp), fun h => hinv.res1 h, ?_⟩
        intro _ h2 u hu hu1
        have hl0 : s.lock = some false := hinv.lock0 (Or.inl h1)
        have hp14 : s.p1.pc = 4 := by
          rcases Nat.lt_or_ge s.p1.pc 4 with h4 | h4
          · have h2' : 2 ≤ s.p1.pc := h2
            have := hinv.lock1 (by omega)
            rw [hl0] at this
            exact absurd this (by simp)
          · exact Nat.le_antisymm hinv.pc1le h4
        have hunotres : u ∉ s.reserved := by
          have hmem := (List.mem_filter.mp (hsel _ u hu)).2
          simp at hmem
          exact hmem
        rcases hinv.res1 (Or.inr hp14) with he | he
        · rw [he] at hu1
          exact absurd hu1 (by simp)
        · exact hunotres (he u hu1)
      · by_cases h2 : s.p0.pc = 2
        · have hs : gsuStep selF allU false s =
              { s with
                reserved := if s.p0.sel.isEmpty then s.reserved else s.reserved ++ s.p0.sel,
                p0 := ⟨3, s.p0.sel⟩ } := by
            simp [gsuStep, procOf, setProc, h0, h1, h2]
          rw [hs]
          refine ⟨by simp, hinv.pc1le, fun _ => hinv.lock0 (Or.inr (Or.inl h2)),
            fun h => hinv.lock1 h, ?_, ?_, ?_⟩
          · intro _
            by_cases hemp : s.p0.sel.isEmpty
            · exact Or.inl (List.isEmpty_iff.mp hemp)
            · refine Or.inr fun u hu => ?_
              show u ∈ if s.p0.sel.isEmpty then s.reserved else s.reserved ++ s.p0.sel
              rw [if_neg hemp]
              exact List.mem_append_right _ hu
          · intro h
            rcases hinv.res1 h with he | he
            · exact Or.inl he
            · refine Or.inr fun u hu => ?_
              show u ∈ if s.p0.sel.isEmpty then s.reserved else s.reserved ++ s.p0.sel
              by_cases hemp : s.p0.sel.isEmpty
              · rw [if_pos hemp]; exact he u hu
              · rw [if_neg hemp]; exact List.mem_append_left _ (he u hu)
          · intro _ h2'
            exact hinv.disj (by omega) h2'
        · by_cases h3 : s.p0.pc = 3
          · have hs : gsuStep selF allU false s =
                { s with lock := none, p0 := ⟨4, s.p0.sel⟩ } := by
              simp [gsuStep, procOf, setProc, h0, h1, h2, h3]
            rw [hs]
            refine ⟨by simp, hinv.pc1le, fun h => absurd h (by simp), fun h => ?_,
              fun _ => hinv.res0 (Or.inl h3), fun h => hinv.res1 h,
              fun _ h2' => hinv.disj (by omega) h2'⟩
            have ht := hinv.lock1 h
            have hf := hinv.lock0 (Or.inr (Or.inr h3))
            rw [hf] at ht
            exact absurd ht (by simp)
          · have hs : gsuStep selF allU false s = s := by
              simp [gsuStep, procOf, setProc, h0, h1, h2, h3]
            rw [hs]; exact hinv
  · by_cases h0 : s.p1.pc = 0
    · by_cases hl : s.lock = none
      · have hs : gsuStep selF allU true s =
            { s with lock := some true, p1 := ⟨1, s.p1.sel⟩ } := by
          simp [gsuStep, procOf, setProc, h0, hl]
        rw [hs]
        refine ⟨hinv.pc0le, by simp, fun h => ?_, fun _ => rfl, fun h => hinv.res0 h,
          fun h => absurd h (by simp), fun _ h2 => absurd h2 (by simp)⟩
        exact absurd (hl.symm.trans (hinv.lock0 h)) (by simp)
      · have hs : gsuStep selF allU true s = s := by
          simp [gsuStep, procOf, setProc, h0, hl]
        rw [hs]; exact hinv
    · by_cases h1 : s.p1.pc = 1
      · have hs : gsuStep selF allU true s =
            { s with p1 := ⟨2, selF (allU.filter (fun u => !(s.reserved.contains u)))⟩ } := by
          simp [gsuStep, procOf, setProc, h0, h1]
        rw [hs]
        refine ⟨hinv.pc0le, by simp, fun h => hinv.lock0 h,
          fun _ => hinv.lock1 (Or.inl h1), fun h => hinv.res0 h,
          fun h => absurd h (by simp), ?_⟩
        intro h2 _ u hu hu1
        have hl1 : s.lock = some true := hinv.lock1 (Or.inl h1)
        have hp04 : s.p0.pc = 4 := by
          rcases Nat.lt_or_ge s.p0.pc 4 with h4 | h4
          · have h2' : 2 ≤ s.p0.pc := h2
            have := hinv.lock0 (by omega)
            rw [hl1] at this
            exact absurd this (by simp)
          · exact Nat.le_antisymm hinv.pc0le h4
        have hunotres : u ∉ s.reserved := by
          have hmem := (List.mem_filter.mp (hsel _ u hu1)).2
          simp at hmem
          exact hmem
        rcases hinv.res0 (Or.inr hp04) with he | he
        · rw [he] at hu
          exact absurd hu (by simp)
        · exact hunotres (he u hu)
      · by_cases h2 : s.p1.pc = 2
        · have hs : gsuStep selF allU true s =
              { s with
                reserved := if s.p1.sel.isEmpty then s.reserved else s.reserved ++ s.p1.sel,
                p1 := ⟨3, s.p1.sel⟩ } := by
            simp [gsuStep, procOf, setProc, h0, h1, h2]
          rw [hs]
          refine ⟨hinv.pc0le, by simp, fun h => hinv.lock0 h,
            fun _ => hinv.lock1 (Or.inr (Or.inl h2)), ?_, ?_, ?_⟩
          · intro h
            rcases hinv.res0 h with he | he
            · exact Or.inl he
            · refine Or.inr fun u hu => ?_
              show u ∈ if s.p1.sel.isEmpty then s.reserved else s.reserved ++ s.p1.sel
              by_cases hemp : s.p1.sel.isEmpty
              · rw [if_pos hemp]; exact he u hu
              · rw [if_neg hemp]; exact List.mem_append_left _ (he u hu)
          · intro _
            by_cases hemp : s.p1.sel.isEmpty
            · exact Or.inl (List.isEmpty_iff.mp hemp)
            · refine Or.inr fun u hu => ?_
              show u ∈ if s.p1.sel.isEmpty then s.reserved else s.reserved ++ s.p1.sel
              rw [if_neg hemp]
              exact List.mem_append_right _ hu
          · intro h2' _
            exact hinv.disj h2' (by omega)
        · by_cases h3 : s.p1.pc = 3
          · have hs : gsuStep selF allU true s =
                { s with lock := none, p1 := ⟨4, s.p1.sel⟩ } := by
              simp [gsuStep, procOf, setProc, h0, h1, h2, h3]
            rw [hs]
            refine ⟨hinv.pc0le, by simp, fun h => ?_, fun h => absurd h (by simp),
              fun h => hinv.res0 h, fun _ => hinv.res1 (Or.inl h3),
              fun h2' _ => hinv.disj h2' (by omega)⟩
            have hf := hinv.lock0 h
            have ht := hinv.lock1 (Or.inr (Or.inr h3))
            rw [hf] at ht
            exact absurd ht (by simp)
          · have hs : gsuStep selF allU true s = s := by
              simp [gsuStep, procOf, setProc, h0, h1, h2, h3]
            rw [hs]; exact hinv

theorem gsuFoldl_inv (selF : List Nat → List Nat)
    (hsel : ∀ xs, ∀ u ∈ selF xs, u ∈ xs) (allU : List Nat) :
    ∀ (sched : List Bool) (s : GState), GInv s →
      GInv (sched.foldl (fun s i => gsuStep selF allU i s) s) := by
  intro sched
  induction sched with
  | nil => intro s hs; exact hs
  | cons i sched ih =>
    intro s hs
    exact ih (gsuStep selF allU i s) (gsuStep_inv selF hsel allU i s hs)

theorem gsuRun_inv (selF : List Nat → List Nat)
    (hsel : ∀ xs, ∀ u ∈ selF xs, u ∈ xs) (allU : List Nat) (sched : List Bool) :
    GInv (gsuRun selF allU sched) :=
  gsuFoldl_inv selF hsel allU sched gsuInit
    ⟨by decide, by decide, fun h => absurd h (by decide), fun h => absurd h (by decide),
     fun h => absurd h (by decide), fun h => absurd h (by decide),
     fun h2 _ => absurd h2 (by decide)⟩

/-- C5: for any interleaving of two `get_spendable_utxos` calls, any
selection function returning a subset of the outputs offered to it, and
any set of unspent outputs, once both calls have returned, no output
appears in both spendable lists: the reservation lock spans estimator
collection, coin selection and database reservation, so the second
critical section only ever sees outputs the first one did not reserve. -/
theorem C5_no_double_selection (selF : List Nat → List Nat) (allU : List Nat)
    (sched : List Bool) (hsel : ∀ xs, ∀ u ∈ selF xs, u ∈ xs)
    (h0 : (gsuRun selF allU sched).p0.pc = 4) (h1 : (gsuRun selF allU sched).p1.pc = 4) :
    ∀ u, u ∈ (gsuRun selF allU sched).p0.sel → u ∉ (gsuRun selF allU sched).p1.sel := by
  intro u hu
  exact (gsuRun_inv selF hsel allU sched).disj (by omega) (by omega) u hu

/-- Witness for C5: with one unspent output and the two calls run one
after the other, the first call selects and reserves output `5`; the
second call's selection does not contain it. -/
theorem C5_witness :
    5 ∉ (gsuRun selTakeOne [5] [false, false, false, false, true, true, true, true]).p1.sel :=
  C5_no_double_selection selTakeOne [5] [false, false, false, false, true, true, true, true]
    (fun xs u hu => List.take_subset 1 xs hu) (by decide) (by decide) 5 (by decide)
/-! ## Claim C8: the Base58Check address round trip -/

theorem beBytesToNat_eq_ofDigits (bs : List Nat) :
    beBytesToNat bs = Nat.ofDigits 256 bs.reverse := by
  have h := foldl_base_reverse 256 bs.reverse
  rw [List.reverse_reverse] at h
  exact h

theorem beBytesToNat_replicate_zero (z : Nat) (bs : List Nat) :
    beBytesToNat (List.replicate z 0 ++ bs) = beBytesToNat bs := by
  unfold beBytesToNat
  rw [List.foldl_append]
  congr 1
  induction z with
  | zero => rfl
  | succ z ih => simpa using ih

theorem takeWhile_append_all {α : Type} (p : α → Bool) (l1 l2 : List α)
    (h : ∀ a ∈ l1, p a = true) :
    (l1 ++ l2).takeWhile p = l1 ++ l2.takeWhile p ∧
      (l1 ++ l2).dropWhile p = l2.dropWhile p := by
  induction l1 with
  | nil => exact ⟨rfl, rfl⟩
  | cons a l1 ih =>
    have ha := h a (List.mem_cons_self a l1)
    obtain ⟨ht, hd⟩ := ih (fun x hx => h x (List.mem_cons_of_mem a hx))
    constructor
    · rw [List.cons_append, List.takeWhile_cons, if_pos ha, ht, List.cons_append]
    · rw [List.cons_append, List.dropWhile_cons, if_pos ha, hd]

theorem takeWhile_eq_nil_of_head {α : Type} (p : α → Bool) (l : List α)
    (h : ∀ a ∈ l.head?, p a = false) : l.takeWhile p = [] := by
  cases l with
  | nil => rfl
  | cons a l => rw [List.takeWhile_cons, if_neg (by rw [h a rfl]; simp)]

theorem dropWhile_eq_self_of_head {α : Type} (p : α → Bool) (l : List α)
    (h : ∀ a ∈ l.head?, p a = false) : l.dropWhile p = l := by
  cases l with
  | nil => rfl
  | cons a l => rw [List.dropWhile_cons, if_neg (by rw [h a rfl]; simp)]

theorem dropWhile_head_not {α : Type} (p : α → Bool) :
    ∀ (l : List α) (a : α) (t : List α), l.dropWhile p = a :: t → p a = false := by
  intro l
  induction l with
  | nil => intro a t h; cases h
  | cons x xs ih =>
    intro a t h
    rw [List.dropWhile_cons] at h
    by_cases hx : p x = true
    · rw [if_pos hx] at h
      exact ih a t h
    · rw [if_neg hx] at h
      injection h with h1 h2
      subst h1
      simpa using hx

theorem b58Val_b58Char {d : Nat} (hd : d < 58) : b58Val (b58Char d) = d := by
  interval_cases d <;> decide

theorem b58Char_ne_one {d : Nat} (hd0 : 0 < d) (hd : d < 58) : (b58Char d == '1') = false := by
  interval_cases d <;> decide

/-- Base58 decode is a left inverse of Base58 encode on byte strings. -/
theorem base58_decode_encode (bs : List Nat) (hbs : ∀ b ∈ bs, b < 256) :
    base58_decode (base58_encode bs) = bs := by
  have hsplit : List.replicate (bs.takeWhile (fun b => b == 0)).length 0 ++
      bs.dropWhile (fun b => b == 0) = bs := by
    have ht : bs.takeWhile (fun b => b == 0) =
        List.replicate (bs.takeWhile (fun b => b == 0)).length 0 := by
      rw [List.eq_replicate_iff]
      exact ⟨rfl, fun b hb => by simpa using List.mem_takeWhile_imp hb⟩
    conv_rhs => rw [← List.takeWhile_append_dropWhile (fun b => b == 0) bs]
    rw [← ht]
  set z := (bs.takeWhile (fun b => b == 0)).length with hz
  set rest := bs.dropWhile (fun b => b == 0) with hrest
  have hrestlt : ∀ b ∈ rest, b < 256 := by
    intro b hb
    have : b ∈ bs := by
      rw [← hsplit]
      exact List.mem_append_right _ hb
    exact hbs b this
  have hn : beBytesToNat bs = Nat.ofDigits 256 rest.reverse := by
    rw [← hsplit, beBytesToNat_replicate_zero, beBytesToNat_eq_ofDigits]
  unfold base58_encode base58_decode
  rw [show (String.mk (List.replicate z '1' ++
      ((toBaseDigits 58 (beBytesToNat bs)).map b58Char).reverse)).data =
      List.replicate z '1' ++ ((toBaseDigits 58 (beBytesToNat bs)).map b58Char).reverse
    from rfl]
  rcases hr : rest with _ | ⟨r, rtail⟩
  · have hn0 : beBytesToNat bs = 0 := by rw [hn, hr]; rfl
    rw [hn0, toBaseDigits_eq_digits (by norm_num), Nat.digits_zero]
    simp only [List.map_nil, List.reverse_nil, List.append_nil]
    have h1 : (List.replicate z '1').takeWhile (fun c => c == '1') = List.replicate z '1' := by
      rw [List.takeWhile_eq_self_iff]
      intro a ha
      simpa using List.eq_of_mem_replicate ha
    have h2 : (List.replicate z '1').dropWhile (fun c => c == '1') = [] := by
      rw [List.dropWhile_eq_nil_iff]
      intro a ha
      simpa using List.eq_of_mem_replicate ha
    rw [h1, h2, List.length_replicate]
    show List.replicate z 0 ++ (toBaseDigits 256 0).reverse = bs
    rw [toBaseDigits_eq_digits (by norm_num), Nat.digits_zero]
    rw [← hsplit, hr]
    rfl
  · have hne : beBytesToNat bs ≠ 0 := by
      intro h0
      have hd : Nat.digits 256 (Nat.ofDigits 256 rest.reverse) = rest.reverse := by
        refine Nat.digits_ofDigits 256 (by norm_num) _ (fun x hx => ?_) (fun hne2 => ?_)
        · exact hrestlt x (List.mem_reverse.mp hx)
        · intro hh
          have hlast : rest.reverse.getLast hne2 = r := by
            have h1 := List.getLast?_eq_getLast rest.reverse hne2
            rw [List.getLast?_reverse] at h1
            have h3 : rest.head? = some r := by rw [hr]; rfl
            rw [h3] at h1
            simpa using h1.symm
          have hdw := dropWhile_head_not (fun b => b == 0) bs r rtail (by rw [← hrest, hr])
          rw [hlast] at hh
          rw [hh] at hdw
          simp at hdw
      rw [← hn, h0, Nat.digits_zero] at hd
      rw [hr] at hd
      exact absurd hd.symm (by simp)
    have hdigits : Nat.digits 256 (beBytesToNat bs) = rest.reverse := by
      rw [hn]
      refine Nat.digits_ofDigits 256 (by norm_num) _ (fun x hx => ?_) (fun hne2 => ?_)
      · exact hrestlt x (List.mem_reverse.mp hx)
      · intro hh
        have hlast : rest.reverse.getLast hne2 = r := by
          have h1 := List.getLast?_eq_getLast rest.reverse hne2
          rw [List.getLast?_reverse] at h1
          have h3 : rest.head? = some r := by rw [hr]; rfl
          rw [h3] at h1
          simpa using h1.symm
        have hdw := dropWhile_head_not (fun b => b == 0) bs r rtail (by rw [← hrest, hr])
        rw [hlast] at hh
        rw [hh] at hdw
        simp at hdw
    have hd58lt : ∀ d ∈ toBaseDigits 58 (beBytesToNat bs), d < 58 := by
      intro d hd
      rw [toBaseDigits_eq_digits (by norm_num)] at hd
      exact Nat.digits_lt_base (by norm_num) hd
    have hd58ne : toBaseDigits 58 (beBytesToNat bs) ≠ [] := by
      rw [toBaseDigits_eq_digits (by norm_num)]
      simpa [Nat.digits_eq_nil_iff_eq_zero] using hne
    have hheadne1 : ∀ c ∈ (((toBaseDigits 58 (beBytesToNat bs)).map b58Char).reverse).head?,
        (c == '1') = false := by
      intro c hc
      rw [← List.map_reverse, List.head?_map] at hc
      rcases hrev : (toBaseDigits 58 (beBytesToNat bs)).reverse with _ | ⟨d, ds⟩
      · rw [hrev] at hc
        cases hc
      · rw [hrev] at hc
        simp only [List.head?_cons, Option.map_some', Option.mem_def, Option.some.injEq] at hc
        subst hc
        have hdmem : d ∈ toBaseDigits 58 (beBytesToNat bs) := by
          rw [← List.mem_reverse, hrev]
          exact List.mem_cons_self _ _
        have hdlast : d ≠ 0 := by
          have hne58 : Nat.digits 58 (beBytesToNat bs) ≠ [] := by
            simpa [Nat.digits_eq_nil_iff_eq_zero] using hne
          have h2 := List.getLast?_eq_getLast (Nat.digits 58 (beBytesToNat bs)) hne58
          have h1 : (Nat.digits 58 (beBytesToNat bs)).getLast? = some d := by
            rw [List.getLast?_eq_head?_reverse, ← toBaseDigits_eq_digits (by norm_num), hrev]
            rfl
          rw [h1] at h2
          have hd_eq : d = (Nat.digits 58 (beBytesToNat bs)).getLast hne58 := by
            injection h2
          rw [hd_eq]
          exact Nat.getLast_digit_ne_zero 58 hne
        exact b58Char_ne_one (Nat.pos_of_ne_zero hdlast) (hd58lt d hdmem)
    obtain ⟨htk, hdp⟩ := takeWhile_append_all (fun c => c == '1') (List.replicate z '1')
      (((toBaseDigits 58 (beBytesToNat bs)).map b58Char).reverse)
      (fun a ha => by simpa using List.eq_of_mem_replicate ha)
    rw [htk, hdp, takeWhile_eq_nil_of_head _ _ hheadne1, dropWhile_eq_self_of_head _ _ hheadne1]
    rw [List.append_nil, List.length_replicate]
    have hval : (((toBaseDigits 58 (beBytesToNat bs)).map b58Char).reverse).foldl
        (fun a c => 58 * a + b58Val c) 0 = beBytesToNat bs := by
      rw [← List.map_reverse, List.foldl_map]
      have hext := List.foldl_ext (fun a d => 58 * a + b58Val (b58Char d))
        (fun a d => 58 * a + d) 0
        (fun a x hx => by
          show 58 * a + b58Val (b58Char x) = 58 * a + x
          rw [b58Val_b58Char (hd58lt x (List.mem_reverse.mp hx))])
      exact hext.trans (by
        rw [foldl_base_reverse, toBaseDigits_eq_digits (by norm_num), Nat.ofDigits_digits])
    rw [hval]
    rw [show toBaseDigits 256 (beBytesToNat bs) = Nat.digits 256 (beBytesToNat bs) from
      toBaseDigits_eq_digits (by norm_num) _, hdigits, List.reverse_reverse]
    exact hsplit

/-- C8: for every well-formed address of the ledger's one-byte
`pubkey_address_prefix` — the Base58Check encoding of the version byte, a
20-byte hash160 and the first four bytes of the `double_sha256` checksum —
decoding with `address_to_hash160` and re-encoding with
`hash160_to_address` reproduces the address.  Stated for every checksum
function whose output is made of bytes, so it holds for the real
`double_sha256`. -/
theorem C8_address_round_trip (dsha : List Nat → List Nat) (v : Nat) (h160 : List Nat)
    (hv : v < 256) (hlen : h160.length = 20) (hb : ∀ b ∈ h160, b < 256)
    (hck : ∀ b ∈ dsha ([v] ++ h160), b < 256) :
    hash160_to_address dsha [v] (address_to_hash160 (hash160_to_address dsha [v] h160)) =
      hash160_to_address dsha [v] h160 := by
  have hbytes : ∀ b ∈ ([v] ++ h160) ++ (dsha ([v] ++ h160)).take 4, b < 256 := by
    intro b hbm
    rcases List.mem_append.mp hbm with h | h
    · rcases List.mem_append.mp h with h1 | h1
      · rcases List.mem_singleton.mp h1 with rfl
        exact hv
      · exact hb b h1
    · exact hck b (List.mem_of_mem_take h)
  have hdec : address_to_hash160 (hash160_to_address dsha [v] h160) = h160 := by
    unfold address_to_hash160 hash160_to_address
    rw [base58_decode_encode _ hbytes, List.append_assoc]
    show ((v :: (h160 ++ (dsha ([v] ++ h160)).take 4)).drop 1).take 20 = h160
    rw [List.drop_one, List.tail_cons, ← hlen, List.take_left]
  rw [hdec]

/-- Witness for C8: concrete round trip for the version-0 address of the
all-zero hash160 under a concrete checksum function. -/
theorem C8_witness :
    hash160_to_address dsha0 [0] (address_to_hash160 (hash160_to_address dsha0 [0] z20)) =
      hash160_to_address dsha0 [0] z20 :=
  C8_address_round_trip dsha0 0 z20 (by decide) (by decide) (by decide) (by decide)